import Mathlib

/-!
# Mercurial command translation (`src/js/mercurial/commands.js`)

A shallow embedding of `commandConfig`, the table that turns a parsed `hg`
invocation either into a descriptor naming a git command (`delegate`) or into
a direct call on the engine (`execute`).

JavaScript objects are association lists with the assignment and deletion
behaviour of plain objects, thrown errors are `Except.error`, and every
handler returns the engine and the command as they are when it stops, also
when it stops by throwing.
-/

namespace Hg

/-! ## Values -/

/-- Text of an error or warning: `intl.str(key)` selects a catalog entry, the
other form is a string literal written in the handler. -/
inductive Msg where
  | intl (key : String)
  | literal (text : String)
  deriving DecidableEq, Repr

/-- What a handler can throw. `gitError` is `new GitError({msg: ...})`;
`argumentCountError` is the failure of the argument bounds helper;
`typeError` is the runtime's own error for indexing `undefined`. -/
inductive HgError where
  | gitError (msg : Msg)
  | argumentCountError (len lower upper : Nat)
  | typeError
  deriving DecidableEq, Repr

/-- The object returned by a delegating handler, `{vcs: ..., name: ...}`. -/
structure Descriptor where
  vcs : String
  name : String
  deriving DecidableEq, Repr

/-! ## The option map: a plain object from flag to argument list -/

/-- Property read `o[k]` on the entry list; `none` is `undefined`. -/
def lookupKey (k : String) : List (String × List String) → Option (List String)
  | [] => none
  | (k', v) :: rest => if k' = k then some v else lookupKey k rest

/-- Property write `o[k] = v`: an existing property keeps its place, a new one
goes last. -/
def assignKey (k : String) (v : List String) :
    List (String × List String) → List (String × List String)
  | [] => [(k, v)]
  | (k', v') :: rest => if k' = k then (k', v) :: rest else (k', v') :: assignKey k v rest

/-- Property removal `delete o[k]`. -/
def deleteKey (k : String) : List (String × List String) → List (String × List String)
  | [] => []
  | (k', v') :: rest => if k' = k then deleteKey k rest else (k', v') :: deleteKey k rest

/-- The option map of an invocation: flag to the arguments that follow it, in
insertion order. A flag that was not given has no entry. -/
structure OptionMap where
  entries : List (String × List String)
  deriving DecidableEq, Repr

namespace OptionMap

/-- Read `options[k]`. -/
def get (o : OptionMap) (k : String) : Option (List String) := lookupKey k o.entries

/-- Truthiness of `options[k]`: an array is truthy (also the empty one),
`undefined` is not. -/
def has (o : OptionMap) (k : String) : Bool := (o.get k).isSome

/-- Write `options[k] = v`. -/
def set (o : OptionMap) (k : String) (v : List String) : OptionMap := ⟨assignKey k v o.entries⟩

/-- Remove `delete options[k]`. -/
def delete (o : OptionMap) (k : String) : OptionMap := ⟨deleteKey k o.entries⟩

end OptionMap

/-- The expression `x || d` for a string-or-undefined `x`: `undefined` and the
empty string are falsy. -/
def jsOr (x : Option String) (d : String) : String :=
  match x with
  | some s => if s = "" then d else s
  | none => d

/-- Truthy value of a string-or-undefined `x`, if it has one. -/
def jsTruthy (x : Option String) : Option String :=
  match x with
  | some s => if s = "" then none else some s
  | none => none

/-! ## The invocation and the engine -/

/-- The parsed invocation handed to a handler: option map, general arguments
and the advisory warnings attached so far. -/
structure Command where
  supportedMap : OptionMap
  generalArgs : List String
  warnings : List Msg
  deriving DecidableEq, Repr

/-- The engine as far as this module drives it: the `hgRebase(dest, base)`
calls received, oldest first. `base` is `none` when the handler passes
`undefined`. -/
structure Engine where
  hgRebaseCalls : List (String × Option String)
  deriving DecidableEq, Repr

/-- Record of `engine.hgRebase(dest, base)`. -/
def Engine.hgRebase (e : Engine) (dest : String) (base : Option String) : Engine :=
  ⟨e.hgRebaseCalls ++ [(dest, base)]⟩

/-- Where a handler leaves things: the engine, the invocation, and either the
returned value or the error thrown. -/
structure Outcome (α : Type) where
  engine : Engine
  command : Command
  result : Except HgError α

/-- A handler `function(engine, command)`. -/
abbrev Handler (α : Type) := Engine → Command → Outcome α

namespace Command

/-- Modelled from the spec: `getSupportedMap` of the command model, "retrieve
the current option map". The map is the invocation's own object, so a write
to it by a handler is a write to the invocation. -/
def getSupportedMap (c : Command) : OptionMap := c.supportedMap

/-- Modelled from the spec: `setSupportedMap` of the command model, "replace it
wholesale". -/
def setSupportedMap (c : Command) (o : OptionMap) : Command := { c with supportedMap := o }

/-- Modelled from the spec: `getGeneralArgs` of the command model, "retrieve
the general-argument list". -/
def getGeneralArgs (c : Command) : List String := c.generalArgs

/-- Modelled from the spec: `setGeneralArgs` of the command model, "replace the
general-argument list". -/
def setGeneralArgs (c : Command) (args : List String) : Command := { c with generalArgs := args }

/-- Modelled from the spec: `addWarning` of the command model, "append a
non-fatal advisory message to the ReporterChannel (does not abort
processing)". -/
def addWarning (c : Command) (m : Msg) : Command := { c with warnings := c.warnings ++ [m] }

/-- Modelled from the spec: `validateArgBounds` of the command model, "assert
the general-argument list's length lies within an inclusive [min, max] bound;
fails with an ArgumentCountError otherwise". `none` is a normal return. -/
def validateArgBounds (_c : Command) (args : List String) (lower upper : Nat) : Option HgError :=
  if lower ≤ args.length ∧ args.length ≤ upper then none
  else some (HgError.argumentCountError args.length lower upper)

/-- Modelled from the spec: `acceptNoGeneralArgs` of the command model, "assert
there are zero general arguments; fails the same way". -/
def acceptNoGeneralArgs (c : Command) : Option HgError :=
  c.validateArgBounds c.generalArgs 0 0

/-- Modelled from the spec: `mapDotToHead` of the command model, "substitutes a
conventional current position placeholder token with the canonical symbolic
name for the current tip position, wherever it appears in general
arguments". The handlers below take the helper as a parameter; this is the
reading of the sentence word for word. -/
def mapDotToHead (c : Command) : Command :=
  c.setGeneralArgs (c.generalArgs.map fun a => if a = "." then "HEAD" else a)

end Command

/-! ## Patterns -/

/-- The regular expressions of the table, as syntax trees. -/
inductive Regex where
  | bol
  | eol
  | lit (s : String)
  | ws
  | seq (a b : Regex)
  | alt (a b : Regex)
  | star (a : Regex)
  | plus (a : Regex)
  deriving DecidableEq, Repr

/-- The class `\s` of the language: white space and line terminators, by code
point. -/
def isJsWhitespace (c : Char) : Bool :=
  let n := c.toNat
  n = 9 || n = 10 || n = 11 || n = 12 || n = 13 || n = 32 || n = 160 || n = 5760 ||
    (8192 ≤ n && n ≤ 8202) || n = 8232 || n = 8233 || n = 8239 || n = 8287 || n = 12288 ||
    n = 65279

/-- A position in the line: whether it is the start of the line, and what is
left to read. -/
structure Pos where
  atStart : Bool
  rest : List Char
  deriving DecidableEq, Repr

/-- Repetition: the positions reached by zero or more rounds of `step`, each
round reading at least one character. -/
def iterEnds (step : Pos → List Pos) : Nat → Pos → List Pos
  | 0, p => [p]
  | fuel + 1, p =>
    p :: ((step p).filter fun q => q.rest.length < p.rest.length).flatMap (iterEnds step fuel)

/-- All positions at which a match of the pattern begun at `p` can end. `bol`
is `^` and `eol` is `$`, both without the multiline flag. -/
def Regex.ends : Regex → Pos → List Pos
  | .bol, p => if p.atStart then [p] else []
  | .eol, p => if p.rest.isEmpty then [p] else []
  | .lit s, p =>
    if s.data.isPrefixOf p.rest then
      [⟨p.atStart && s.data.isEmpty, p.rest.drop s.data.length⟩]
    else []
  | .ws, p =>
    match p.rest with
    | c :: t => if isJsWhitespace c then [⟨false, t⟩] else []
    | [] => []
  | .seq a b, p => (a.ends p).flatMap b.ends
  | .alt a b, p => a.ends p ++ b.ends p
  | .star a, p => iterEnds a.ends p.rest.length p
  | .plus a, p => (a.ends p).flatMap fun q => iterEnds a.ends q.rest.length q

/-- The positions of a line: every suffix, the first one being the start. -/
def positions : Bool → List Char → List Pos
  | b, [] => [⟨b, []⟩]
  | b, c :: t => ⟨b, c :: t⟩ :: positions false t

/-- The call `regex.test(line)`: a match begins somewhere in the line. -/
def Regex.test (r : Regex) (line : String) : Bool :=
  (positions true line.data).any fun p => !(r.ends p).isEmpty

/-- The tail `($|\s)`. -/
def Regex.endOrWs : Regex := Regex.alt Regex.eol Regex.ws

/-- The tail `($|\s+)`. -/
def Regex.endOrWsPlus : Regex := Regex.alt Regex.eol (Regex.plus Regex.ws)

/-- The tail ` *$`. -/
def Regex.spacesEnd : Regex := Regex.seq (Regex.star (Regex.lit " ")) Regex.eol

/-- The head `^hg +`. -/
def Regex.hgSpaces : Regex :=
  Regex.seq Regex.bol (Regex.seq (Regex.lit "hg") (Regex.plus (Regex.lit " ")))

/-! ## Definitions of the table -/

/-- One entry of `commandConfig`. A missing `execute` or `delegate` property
is `none`. -/
structure CommandDefinition where
  name : String
  regex : Regex
  options : List String
  dontCountForGolf : Bool
  execute : Option (Handler Unit)
  delegate : Option (Handler Descriptor)

/-- Handler `commit.delegate`. -/
def commitDelegate : Handler Descriptor := fun engine command =>
  let options := command.getSupportedMap
  let command := if options.has "-A" then command.addWarning (Msg.intl "hg-a-option") else command
  ⟨engine, command, .ok ⟨"git", "commit"⟩⟩

/-- Handler `status.execute`. -/
def statusExecute : Handler Unit := fun engine command =>
  ⟨engine, command, .error (.gitError (.intl "hg-error-no-status"))⟩

/-- Handler `export.delegate`. -/
def exportDelegate (mapDotToHead : Command → Command) : Handler Descriptor := fun engine command =>
  let command := mapDotToHead command
  ⟨engine, command, .ok ⟨"git", "show"⟩⟩

/-- Handler `graft.delegate`. -/
def graftDelegate : Handler Descriptor := fun engine command =>
  let options := command.getSupportedMap
  match options.get "-r" with
  | none => ⟨engine, command, .error (.gitError (.intl "git-error-options"))⟩
  | some r =>
    let command := command.setGeneralArgs r
    ⟨engine, command, .ok ⟨"git", "cherrypick"⟩⟩

/-- Handler `log.delegate`. -/
def logDelegate (mapDotToHead : Command → Command) : Handler Descriptor := fun engine command =>
  let options := command.getSupportedMap
  match command.acceptNoGeneralArgs with
  | some e => ⟨engine, command, .error e⟩
  | none =>
    if !options.has "-f" then
      ⟨engine, command, .error (.gitError (.intl "hg-error-log-no-follow"))⟩
    else
      let command := mapDotToHead command
      ⟨engine, command, .ok ⟨"git", "log"⟩⟩

/-- The term `options[k] ? options[k].length : 0`. -/
def lengthOrZero (options : OptionMap) (k : String) : Nat :=
  match options.get k with
  | some a => a.length
  | none => 0

/-- Handler `bookmark.delegate`. The writes `options['-D'] = options['-d']`
and `delete options['-d']` act on the invocation's own map. -/
def bookmarkDelegate : Handler Descriptor := fun engine command =>
  let options := command.getSupportedMap
  let generalArgs := command.getGeneralArgs
  if options.has "-m" && options.has "-d" then
    ⟨engine, command, .error (.gitError (.literal "-m and -d are incompatible"))⟩
  else if options.has "-d" && options.has "-r" then
    ⟨engine, command, .error (.gitError (.literal "-r is incompatible with -d"))⟩
  else if options.has "-m" && options.has "-r" then
    ⟨engine, command, .error (.gitError (.literal "-r is incompatible with -m"))⟩
  else if generalArgs.length + lengthOrZero options "-r" + lengthOrZero options "-d" = 0 then
    ⟨engine, command, .ok ⟨"git", "branch"⟩⟩
  else
    match options.get "-d" with
    | some d =>
      let options := (options.set "-D" d).delete "-d"
      ⟨engine, command.setSupportedMap options, .ok ⟨"git", "branch"⟩⟩
    | none =>
      match options.get "-r" with
      | some r =>
        let branchName := jsOr (r.get? 1) ""
        let rev := jsOr (r.get? 0) ""
        ⟨engine, command.setGeneralArgs [branchName, rev], .ok ⟨"git", "branch"⟩⟩
      | none =>
        match generalArgs with
        | first :: _ =>
          let command := command.setSupportedMap ⟨[("-b", [first])]⟩
          ⟨engine, command.setGeneralArgs [], .ok ⟨"git", "checkout"⟩⟩
        | [] => ⟨engine, command, .ok ⟨"git", "branch"⟩⟩

/-- Handler `rebase.execute`. The test for both or neither of `-d` and `-s`
has an empty body and is left out; `throwE` throws the options error. -/
def rebaseExecute (mapDotToHead : Command → Command) : Handler Unit := fun engine command =>
  let options := command.getSupportedMap
  let options := if !options.has "-b" then options.set "-b" ["."] else options
  let command := command.setSupportedMap options
  let command := mapDotToHead command
  let options := command.getSupportedMap
  match options.get "-d" with
  | some d =>
    match jsTruthy (d.get? 0) with
    | none => ⟨engine, command, .error (.gitError (.intl "git-error-options"))⟩
    | some dest =>
      match options.get "-b" with
      | none => ⟨engine, command, .error .typeError⟩
      | some b =>
        let base := b.get? 0
        ⟨engine.hgRebase dest base, command, .ok ()⟩
  | none => ⟨engine, command, .ok ()⟩

/-- Handler `update.delegate`. -/
def updateDelegate : Handler Descriptor := fun engine command =>
  ⟨engine, command, .ok ⟨"git", "checkout"⟩⟩

/-- Handler `backout.delegate`. -/
def backoutDelegate : Handler Descriptor := fun engine command =>
  ⟨engine, command, .ok ⟨"git", "revert"⟩⟩

/-- Handler `histedit.delegate`. -/
def histeditDelegate : Handler Descriptor := fun engine command =>
  let args := command.getGeneralArgs
  match command.validateArgBounds args 1 1 with
  | some e => ⟨engine, command, .error e⟩
  | none =>
    let command := command.setSupportedMap ⟨[("-i", args)]⟩
    let command := command.setGeneralArgs []
    ⟨engine, command, .ok ⟨"git", "rebase"⟩⟩

/-- Handler `pull.delegate`. -/
def pullDelegate : Handler Descriptor := fun engine command =>
  ⟨engine, command, .ok ⟨"git", "pull"⟩⟩

/-- Handler `summary.delegate`. -/
def summaryDelegate : Handler Descriptor := fun engine command =>
  ⟨engine, command, .ok ⟨"git", "branch"⟩⟩

/-- The table `commandConfig`, in declaration order. The helper `mapDotToHead`
of the command model is a parameter. -/
def commandConfig (mapDotToHead : Command → Command) : List CommandDefinition :=
  [ { name := "commit"
      regex := .seq .hgSpaces (.seq (.alt (.lit "commit") (.lit "ci")) .endOrWs)
      options := ["--amend", "-A", "-m"]
      dontCountForGolf := false
      execute := none
      delegate := some commitDelegate },
    { name := "status"
      regex := .seq .hgSpaces (.seq (.alt (.lit "status") (.lit "st")) .spacesEnd)
      options := []
      dontCountForGolf := true
      execute := some statusExecute
      delegate := none },
    { name := "export"
      regex := .seq .hgSpaces (.seq (.lit "export") .endOrWs)
      options := []
      dontCountForGolf := true
      execute := none
      delegate := some (exportDelegate mapDotToHead) },
    { name := "graft"
      regex := .seq .hgSpaces (.seq (.lit "graft") .endOrWs)
      options := ["-r"]
      dontCountForGolf := false
      execute := none
      delegate := some graftDelegate },
    { name := "log"
      regex := .seq .hgSpaces (.seq (.lit "log") .endOrWs)
      options := ["-f"]
      dontCountForGolf := true
      execute := none
      delegate := some (logDelegate mapDotToHead) },
    { name := "bookmark"
      regex := .seq .bol (.seq (.lit "hg ")
        (.seq (.alt (.lit "bookmarks") (.alt (.lit "bookmark") (.lit "book"))) .endOrWs))
      options := ["-r", "-f", "-d"]
      dontCountForGolf := false
      execute := none
      delegate := some bookmarkDelegate },
    { name := "rebase"
      regex := .seq .hgSpaces (.seq (.lit "rebase") .endOrWsPlus)
      options := ["-d", "-s", "-b"]
      dontCountForGolf := false
      execute := some (rebaseExecute mapDotToHead)
      delegate := none },
    { name := "update"
      regex := .seq .hgSpaces (.seq (.alt (.lit "update") (.lit "up")) .endOrWsPlus)
      options := []
      dontCountForGolf := false
      execute := none
      delegate := some updateDelegate },
    { name := "backout"
      regex := .seq .hgSpaces (.seq (.lit "backout") .endOrWsPlus)
      options := []
      dontCountForGolf := false
      execute := none
      delegate := some backoutDelegate },
    { name := "histedit"
      regex := .seq .hgSpaces (.seq (.lit "histedit") .endOrWsPlus)
      options := []
      dontCountForGolf := false
      execute := none
      delegate := some histeditDelegate },
    { name := "pull"
      regex := .seq .hgSpaces (.seq (.lit "pull") .endOrWsPlus)
      options := []
      dontCountForGolf := false
      execute := none
      delegate := some pullDelegate },
    { name := "summary"
      regex := .seq .hgSpaces (.seq (.alt (.lit "summary") (.lit "sum")) .spacesEnd)
      options := []
      dontCountForGolf := false
      execute := none
      delegate := some summaryDelegate } ]

/-! ## Lines, command words and what a pattern reads -/

/-- The word that follows `hg` and its spaces, up to the next white space. -/
def commandWord (line : List Char) : Option (List Char) :=
  match line with
  | c₁ :: c₂ :: c₃ :: rest =>
    if c₁ = 'h' ∧ c₂ = 'g' ∧ c₃ = ' ' then
      some ((rest.dropWhile fun c => c = ' ').takeWhile fun c => !isJsWhitespace c)
    else none
  | _ => none

/-- A tail is absent or begins with white space. -/
def tailOK (t : List Char) : Prop :=
  t = [] ∨ ∃ c u, t = c :: u ∧ isJsWhitespace c = true

/-- Every match of `r` reads `hg`, one or more spaces, one of the words `ws`,
and then ends the line or meets white space. -/
def Shape (r : Regex) (ws : List String) (single : Bool) : Prop :=
  ∀ p q, q ∈ r.ends p → p.atStart = true ∧
    ∃ k w t, w ∈ ws ∧ p.rest = 'h' :: 'g' :: ' ' :: (List.replicate k ' ' ++ (w.data ++ t)) ∧
      tailOK t ∧ (single = true → k = 0)

/-- Every match of `r` reads one of the words `ws`. -/
def Words (r : Regex) (ws : List String) : Prop :=
  ∀ p q, q ∈ r.ends p → ∃ w, w ∈ ws ∧ p.rest = w.data ++ q.rest

/-- The alternatives of the word group in the pattern of each definition. -/
def aliases (name : String) : List String :=
  if name = "commit" then ["commit", "ci"]
  else if name = "status" then ["status", "st"]
  else if name = "export" then ["export"]
  else if name = "graft" then ["graft"]
  else if name = "log" then ["log"]
  else if name = "bookmark" then ["bookmarks", "bookmark", "book"]
  else if name = "rebase" then ["rebase"]
  else if name = "update" then ["update", "up"]
  else if name = "backout" then ["backout"]
  else if name = "histedit" then ["histedit"]
  else if name = "pull" then ["pull"]
  else if name = "summary" then ["summary", "sum"]
  else []

/-- A word is not empty and has no white space. -/
def cleanWord (w : String) : Bool :=
  !w.data.isEmpty && w.data.all fun c => !isJsWhitespace c

/-- The definition whose pattern accepts the word. -/
def ownerOf (w : String) : String :=
  if w = "commit" ∨ w = "ci" then "commit"
  else if w = "status" ∨ w = "st" then "status"
  else if w = "bookmarks" ∨ w = "bookmark" ∨ w = "book" then "bookmark"
  else if w = "update" ∨ w = "up" then "update"
  else if w = "summary" ∨ w = "sum" then "summary"
  else w

/-- The line made of `hg`, `k` spaces and the word `w`. -/
def hgLine (k : Nat) (w : String) : String := ⟨'h' :: 'g' :: (List.replicate k ' ' ++ w.data)⟩

/-- The pattern `r` reads each of the words `ws` when it stands next. -/
def Accepts (r : Regex) (ws : List String) : Prop :=
  ∀ w ∈ ws, ∀ t, (⟨false, t⟩ : Pos) ∈ r.ends ⟨false, w.data ++ t⟩

/-! ## The registry -/

/-- C1. Every entry of `commandConfig` (commit, status, export, graft, log,
bookmark, rebase, update, backout, histedit, pull, summary, in this order)
defines exactly one of `execute` and `delegate`: never both, never neither. -/
theorem commandConfig_exactly_one_handler (mapDotToHead : Command → Command) :
    (commandConfig mapDotToHead).map (fun d => d.name) =
        ["commit", "status", "export", "graft", "log", "bookmark", "rebase", "update",
          "backout", "histedit", "pull", "summary"] ∧
      ∀ d ∈ commandConfig mapDotToHead,
        (d.execute.isSome = true ∧ d.delegate.isSome = false) ∨
          (d.execute.isSome = false ∧ d.delegate.isSome = true) := by
  refine ⟨rfl, ?_⟩
  intro d hd
  simp only [commandConfig, List.mem_cons, List.mem_singleton, List.not_mem_nil, or_false] at hd
  rcases hd with h | h | h | h | h | h | h | h | h | h | h | h <;> subst h <;> simp

/-! ## Facts about the option map -/

theorem lookupKey_assignKey_self (k : String) (v : List String)
    (l : List (String × List String)) : lookupKey k (assignKey k v l) = some v := by
  induction l with
  | nil => simp [assignKey, lookupKey]
  | cons p rest ih =>
    obtain ⟨k', v'⟩ := p
    by_cases h : k' = k
    · simp [assignKey, lookupKey, h]
    · simp [assignKey, lookupKey, h, ih]

theorem lookupKey_deleteKey_self (k : String) (l : List (String × List String)) :
    lookupKey k (deleteKey k l) = none := by
  induction l with
  | nil => simp [deleteKey, lookupKey]
  | cons p rest ih =>
    obtain ⟨k', v'⟩ := p
    by_cases h : k' = k
    · simp [deleteKey, h, ih]
    · simp [deleteKey, lookupKey, h, ih]

theorem lookupKey_deleteKey_ne (k k' : String) (hne : k ≠ k')
    (l : List (String × List String)) : lookupKey k (deleteKey k' l) = lookupKey k l := by
  induction l with
  | nil => simp [deleteKey, lookupKey]
  | cons p rest ih =>
    obtain ⟨k'', v'⟩ := p
    by_cases h : k'' = k'
    · have h2 : ¬ k'' = k := fun e => hne (e.symm.trans h)
      rw [deleteKey, if_pos h, lookupKey, if_neg h2, ih]
    · by_cases h3 : k'' = k
      · rw [deleteKey, if_neg h, lookupKey, if_pos h3, lookupKey, if_pos h3]
      · rw [deleteKey, if_neg h, lookupKey, if_neg h3, lookupKey, if_neg h3, ih]

/-! ## The bookmark handler -/

/-- C2. When both flags of one of the pairs (-d, -r), (-m, -r), (-m, -d) are
present, with any argument lists, any general arguments and any other option,
`bookmark.delegate` throws an error, returns no descriptor, and leaves the
invocation (option map, general arguments) and the engine as they were. -/
theorem bookmark_rejects_exclusive_pairs (engine : Engine) (command : Command)
    (h : (command.supportedMap.has "-d" = true ∧ command.supportedMap.has "-r" = true) ∨
      (command.supportedMap.has "-m" = true ∧ command.supportedMap.has "-r" = true) ∨
      (command.supportedMap.has "-m" = true ∧ command.supportedMap.has "-d" = true)) :
    (∃ msg, (bookmarkDelegate engine command).result = .error (.gitError msg)) ∧
      (bookmarkDelegate engine command).command = command ∧
      (bookmarkDelegate engine command).engine = engine := by
  unfold bookmarkDelegate
  simp only [Command.getSupportedMap, Command.getGeneralArgs]
  by_cases hm : command.supportedMap.has "-m" = true <;>
    by_cases hd : command.supportedMap.has "-d" = true <;>
    by_cases hr : command.supportedMap.has "-r" = true <;>
    simp_all

/-- Witness of C2 on `hg bookmark -d old -r C1 new`. -/
theorem bookmark_rejects_exclusive_pairs_witness :
    (∃ msg, (bookmarkDelegate ⟨[]⟩
        ⟨⟨[("-d", ["old"]), ("-r", ["C1", "new"])]⟩, [], []⟩).result = .error (.gitError msg)) ∧
      (bookmarkDelegate ⟨[]⟩ ⟨⟨[("-d", ["old"]), ("-r", ["C1", "new"])]⟩, [], []⟩).command =
        ⟨⟨[("-d", ["old"]), ("-r", ["C1", "new"])]⟩, [], []⟩ ∧
      (bookmarkDelegate ⟨[]⟩ ⟨⟨[("-d", ["old"]), ("-r", ["C1", "new"])]⟩, [], []⟩).engine = ⟨[]⟩ :=
  bookmark_rejects_exclusive_pairs ⟨[]⟩ ⟨⟨[("-d", ["old"]), ("-r", ["C1", "new"])]⟩, [], []⟩
    (Or.inl ⟨by decide, by decide⟩)

/-- C3. With none of -d, -r, -m in the option map and a non-empty general
argument list whose first element is `n`, `bookmark.delegate` returns
`{vcs: 'git', name: 'checkout'}` and leaves the invocation with the option map
exactly `{'-b': [n]}` and no general argument. -/
theorem bookmark_plain_name_is_checkout (engine : Engine) (command : Command)
    (n : String) (rest : List String)
    (hd : command.supportedMap.has "-d" = false)
    (hr : command.supportedMap.has "-r" = false)
    (hm : command.supportedMap.has "-m" = false)
    (hargs : command.generalArgs = n :: rest) :
    (bookmarkDelegate engine command).result = .ok ⟨"git", "checkout"⟩ ∧
      (bookmarkDelegate engine command).command.supportedMap = ⟨[("-b", [n])]⟩ ∧
      (bookmarkDelegate engine command).command.generalArgs = [] := by
  have hd' : command.supportedMap.get "-d" = none := by
    simpa [OptionMap.has] using hd
  have hr' : command.supportedMap.get "-r" = none := by
    simpa [OptionMap.has] using hr
  unfold bookmarkDelegate
  simp [Command.getSupportedMap, Command.getGeneralArgs, Command.setSupportedMap,
    Command.setGeneralArgs, lengthOrZero, hd, hr, hm, hd', hr', hargs]

/-- Witness of C3 on `hg bookmark feature C3`. -/
theorem bookmark_plain_name_is_checkout_witness :
    (bookmarkDelegate ⟨[]⟩ ⟨⟨[]⟩, ["feature", "C3"], []⟩).result = .ok ⟨"git", "checkout"⟩ ∧
      (bookmarkDelegate ⟨[]⟩ ⟨⟨[]⟩, ["feature", "C3"], []⟩).command.supportedMap =
        ⟨[("-b", ["feature"])]⟩ ∧
      (bookmarkDelegate ⟨[]⟩ ⟨⟨[]⟩, ["feature", "C3"], []⟩).command.generalArgs = [] :=
  bookmark_plain_name_is_checkout ⟨[]⟩ ⟨⟨[]⟩, ["feature", "C3"], []⟩ "feature" ["C3"]
    (by decide) (by decide) (by decide) rfl

/-- C4, as stated, fails on `hg bookmark -d`: -d is present with the empty
argument list, -r and -m are absent and there is no general argument; the
handler returns `{vcs: 'git', name: 'branch'}` from the count test, the map
keeps its -d entry and gets no -D entry. -/
theorem bookmark_delete_flag_alone_keeps_map :
    (⟨[("-d", [])]⟩ : OptionMap).get "-d" = some [] ∧
      (⟨[("-d", [])]⟩ : OptionMap).has "-r" = false ∧
      (⟨[("-d", [])]⟩ : OptionMap).has "-m" = false ∧
      (bookmarkDelegate ⟨[]⟩ ⟨⟨[("-d", [])]⟩, [], []⟩).result = .ok ⟨"git", "branch"⟩ ∧
      (bookmarkDelegate ⟨[]⟩ ⟨⟨[("-d", [])]⟩, [], []⟩).command.supportedMap.get "-D" ≠ some [] ∧
      (bookmarkDelegate ⟨[]⟩ ⟨⟨[("-d", [])]⟩, [], []⟩).command.supportedMap.get "-d" ≠ none := by
  refine ⟨by decide, by decide, by decide, rfl, by decide, by decide⟩

/-- C4, amended. With -d present (argument list `A`) and neither -r nor -m,
`bookmark.delegate` returns `{vcs: 'git', name: 'branch'}` for every general
argument list. When `A` or the general argument list is non-empty, the
resulting option map has -D bound to exactly `A` and no -d entry; when both
are empty the invocation is left as it was. -/
theorem bookmark_delete_renames_flag (engine : Engine) (command : Command) (A : List String)
    (hd : command.supportedMap.get "-d" = some A)
    (hr : command.supportedMap.has "-r" = false)
    (hm : command.supportedMap.has "-m" = false) :
    (bookmarkDelegate engine command).result = .ok ⟨"git", "branch"⟩ ∧
      (0 < command.generalArgs.length + A.length →
        (bookmarkDelegate engine command).command.supportedMap.get "-D" = some A ∧
          (bookmarkDelegate engine command).command.supportedMap.get "-d" = none) ∧
      (command.generalArgs.length + A.length = 0 →
        (bookmarkDelegate engine command).command = command) := by
  have hr' : command.supportedMap.get "-r" = none := by
    simpa [OptionMap.has] using hr
  have hd' : command.supportedMap.has "-d" = true := by
    simp [OptionMap.has, hd]
  by_cases hz : command.generalArgs.length + A.length = 0
  · unfold bookmarkDelegate
    simp [Command.getSupportedMap, Command.getGeneralArgs, lengthOrZero, hd, hr, hm, hd', hr', hz]
  · have hz' : ¬ (command.generalArgs.length + 0 + A.length = 0) := by omega
    unfold bookmarkDelegate
    simp only [Command.getSupportedMap, Command.getGeneralArgs, lengthOrZero, hd, hr, hm, hd',
      hr', hz']
    refine ⟨by simp, fun _ => ⟨?_, ?_⟩, fun h0 => absurd h0 hz⟩
    · simp only [Bool.false_and, Bool.and_false, Bool.false_eq_true, if_false,
        Command.setSupportedMap, OptionMap.get, OptionMap.set, OptionMap.delete]
      rw [lookupKey_deleteKey_ne "-D" "-d" (by decide), lookupKey_assignKey_self]
    · simp only [Bool.false_and, Bool.and_false, Bool.false_eq_true, if_false,
        Command.setSupportedMap, OptionMap.get, OptionMap.set, OptionMap.delete]
      rw [lookupKey_deleteKey_self]

/-- Witness of C4 amended on `hg bookmark -d oldname`. -/
theorem bookmark_delete_renames_flag_witness :
    (bookmarkDelegate ⟨[]⟩ ⟨⟨[("-d", ["oldname"])]⟩, [], []⟩).result = .ok ⟨"git", "branch"⟩ ∧
      (bookmarkDelegate ⟨[]⟩ ⟨⟨[("-d", ["oldname"])]⟩, [], []⟩).command.supportedMap.get "-D" =
        some ["oldname"] ∧
      (bookmarkDelegate ⟨[]⟩ ⟨⟨[("-d", ["oldname"])]⟩, [], []⟩).command.supportedMap.get "-d" =
        none :=
  ⟨(bookmark_delete_renames_flag ⟨[]⟩ ⟨⟨[("-d", ["oldname"])]⟩, [], []⟩ ["oldname"]
      (by decide) (by decide) (by decide)).1,
    (bookmark_delete_renames_flag ⟨[]⟩ ⟨⟨[("-d", ["oldname"])]⟩, [], []⟩ ["oldname"]
      (by decide) (by decide) (by decide)).2.1 (by decide)⟩

/-- C5, as stated, fails on `hg bookmark -r`: -r is present with no argument,
-d and -m are absent and there is no general argument; both components are
missing, yet the general argument list is not set to two empty strings: the
handler returns from the count test and the list stays empty. -/
theorem bookmark_revision_flag_alone_keeps_args :
    (⟨[("-r", [])]⟩ : OptionMap).get "-r" = some [] ∧
      (⟨[("-r", [])]⟩ : OptionMap).has "-d" = false ∧
      (⟨[("-r", [])]⟩ : OptionMap).has "-m" = false ∧
      (bookmarkDelegate ⟨[]⟩ ⟨⟨[("-r", [])]⟩, [], []⟩).result = .ok ⟨"git", "branch"⟩ ∧
      (bookmarkDelegate ⟨[]⟩ ⟨⟨[("-r", [])]⟩, [], []⟩).command.generalArgs = [] ∧
      (bookmarkDelegate ⟨[]⟩ ⟨⟨[("-r", [])]⟩, [], []⟩).command.generalArgs ≠ ["", ""] := by
  refine ⟨by decide, by decide, by decide, rfl, rfl, by decide⟩

/-- C5, amended. With -r present (argument list `R`) and neither -d nor -m,
`bookmark.delegate` returns `{vcs: 'git', name: 'branch'}`. If `R` begins
`[rev, name, ...]` the general argument list becomes exactly `[name, rev]`; if
`R` is `[rev]` it becomes `['', rev]`; if `R` is empty and there is a general
argument it becomes `['', '']`; if `R` is empty and there is no general
argument the invocation is left as it was. -/
theorem bookmark_revision_flips_order (engine : Engine) (command : Command) (R : List String)
    (hR : command.supportedMap.get "-r" = some R)
    (hd : command.supportedMap.has "-d" = false)
    (hm : command.supportedMap.has "-m" = false) :
    (bookmarkDelegate engine command).result = .ok ⟨"git", "branch"⟩ ∧
      (∀ rev name rest, R = rev :: name :: rest →
        (bookmarkDelegate engine command).command.generalArgs = [name, rev]) ∧
      (∀ rev, R = [rev] →
        (bookmarkDelegate engine command).command.generalArgs = ["", rev]) ∧
      (R = [] → command.generalArgs ≠ [] →
        (bookmarkDelegate engine command).command.generalArgs = ["", ""]) ∧
      (R = [] → command.generalArgs = [] →
        (bookmarkDelegate engine command).command = command) := by
  have hd' : command.supportedMap.get "-d" = none := by
    simpa [OptionMap.has] using hd
  have hr' : command.supportedMap.has "-r" = true := by
    simp [OptionMap.has, hR]
  have key : ∀ b : String, jsOr (some b) "" = b := by
    intro b
    unfold jsOr
    by_cases hb : b = "" <;> simp [hb]
  refine ⟨?_, ?_, ?_, ?_, ?_⟩
  · unfold bookmarkDelegate
    simp only [Command.getSupportedMap, Command.getGeneralArgs, lengthOrZero, hR, hd, hm, hd',
      hr']
    split_ifs <;> simp_all
  · intro rev name rest hcons
    subst hcons
    unfold bookmarkDelegate
    simp [Command.getSupportedMap, Command.getGeneralArgs, Command.setGeneralArgs, lengthOrZero,
      hR, hd, hm, hd', hr', key]
  · intro rev hone
    subst hone
    unfold bookmarkDelegate
    simp [Command.getSupportedMap, Command.getGeneralArgs, Command.setGeneralArgs, lengthOrZero,
      hR, hd, hm, hd', hr', key]
    simp [jsOr]
  · intro hnil hne
    subst hnil
    unfold bookmarkDelegate
    simp [Command.getSupportedMap, Command.getGeneralArgs, Command.setGeneralArgs, lengthOrZero,
      hR, hd, hm, hd', hr', jsOr, hne]
  · intro hnil hargs
    subst hnil
    unfold bookmarkDelegate
    simp [Command.getSupportedMap, Command.getGeneralArgs, lengthOrZero, hR, hd, hm, hd', hr',
      hargs]

/-- Witness of C5 amended on `hg bookmark -r C1 feature`. -/
theorem bookmark_revision_flips_order_witness :
    (bookmarkDelegate ⟨[]⟩ ⟨⟨[("-r", ["C1", "feature"])]⟩, [], []⟩).result =
        .ok ⟨"git", "branch"⟩ ∧
      (bookmarkDelegate ⟨[]⟩ ⟨⟨[("-r", ["C1", "feature"])]⟩, [], []⟩).command.generalArgs =
        ["feature", "C1"] :=
  ⟨(bookmark_revision_flips_order ⟨[]⟩ ⟨⟨[("-r", ["C1", "feature"])]⟩, [], []⟩ ["C1", "feature"]
      (by decide) (by decide) (by decide)).1,
    (bookmark_revision_flips_order ⟨[]⟩ ⟨⟨[("-r", ["C1", "feature"])]⟩, [], []⟩ ["C1", "feature"]
      (by decide) (by decide) (by decide)).2.1 "C1" "feature" [] rfl⟩

/-! ## The histedit handler -/

/-- C6. With the bounds helper passing exactly when the length lies in the
bounds, `histedit.delegate` throws the argument count error if and only if
the general argument list does not have exactly one element (so it throws for
two arguments and for none); it throws nothing else, and when it throws the
invocation and the engine are as they were. -/
theorem histedit_fails_iff_not_one_arg (engine : Engine) (command : Command) :
    ((∃ len lower upper, (histeditDelegate engine command).result =
          .error (.argumentCountError len lower upper)) ↔ command.generalArgs.length ≠ 1) ∧
      ((∃ e, (histeditDelegate engine command).result = .error e) ↔
        command.generalArgs.length ≠ 1) ∧
      (command.generalArgs.length ≠ 1 →
        (histeditDelegate engine command).command = command ∧
          (histeditDelegate engine command).engine = engine) := by
  by_cases h : command.generalArgs.length = 1
  · have hb : 1 ≤ command.generalArgs.length ∧ command.generalArgs.length ≤ 1 := by omega
    unfold histeditDelegate
    simp [Command.validateArgBounds, Command.getGeneralArgs, h]
  · have hb : ¬ (1 ≤ command.generalArgs.length ∧ command.generalArgs.length ≤ 1) := by omega
    unfold histeditDelegate
    simp [Command.validateArgBounds, Command.getGeneralArgs, h, hb]

/-- C7. With the general argument list a single element `[a]`, whatever the
option map was, `histedit.delegate` returns `{vcs: 'git', name: 'rebase'}`,
replaces the option map by exactly `{'-i': [a]}` and empties the general
argument list. -/
theorem histedit_single_arg_is_interactive_rebase (engine : Engine) (command : Command)
    (a : String) (hargs : command.generalArgs = [a]) :
    (histeditDelegate engine command).result = .ok ⟨"git", "rebase"⟩ ∧
      (histeditDelegate engine command).command.supportedMap = ⟨[("-i", [a])]⟩ ∧
      (histeditDelegate engine command).command.generalArgs = [] := by
  unfold histeditDelegate
  simp [Command.validateArgBounds, Command.getGeneralArgs, Command.setSupportedMap,
    Command.setGeneralArgs, hargs]

/-- Witness of C7 on `hg histedit C2`, with an option map that is thrown away. -/
theorem histedit_single_arg_is_interactive_rebase_witness :
    (histeditDelegate ⟨[]⟩ ⟨⟨[("-x", ["y"])]⟩, ["C2"], []⟩).result = .ok ⟨"git", "rebase"⟩ ∧
      (histeditDelegate ⟨[]⟩ ⟨⟨[("-x", ["y"])]⟩, ["C2"], []⟩).command.supportedMap =
        ⟨[("-i", ["C2"])]⟩ ∧
      (histeditDelegate ⟨[]⟩ ⟨⟨[("-x", ["y"])]⟩, ["C2"], []⟩).command.generalArgs = [] :=
  histedit_single_arg_is_interactive_rebase ⟨[]⟩ ⟨⟨[("-x", ["y"])]⟩, ["C2"], []⟩ "C2" rfl

/-! ## The log, graft and commit handlers -/

/-- C8. For every invocation, and whatever the placeholder helper does to the
invocation, `log.delegate` returns a descriptor if and only if -f is present
and there is no general argument, and the descriptor is then
`{vcs: 'git', name: 'log'}`; in every other case it throws and returns no
descriptor. -/
theorem log_delegates_iff_follow_and_no_args (mapDotToHead : Command → Command)
    (engine : Engine) (command : Command) :
    ((∃ d, (logDelegate mapDotToHead engine command).result = .ok d) ↔
        (command.supportedMap.has "-f" = true ∧ command.generalArgs = [])) ∧
      (∀ d, (logDelegate mapDotToHead engine command).result = .ok d → d = ⟨"git", "log"⟩) ∧
      (¬ (command.supportedMap.has "-f" = true ∧ command.generalArgs = []) →
        ∃ e, (logDelegate mapDotToHead engine command).result = .error e) := by
  by_cases hargs : command.generalArgs = []
  · by_cases hf : command.supportedMap.has "-f" = true
    · unfold logDelegate
      simp [Command.acceptNoGeneralArgs, Command.validateArgBounds, Command.getSupportedMap,
        hargs, hf]
    · unfold logDelegate
      simp [Command.acceptNoGeneralArgs, Command.validateArgBounds, Command.getSupportedMap,
        hargs, hf]
  · have hlen : ¬ command.generalArgs.length = 0 := by
      intro h0
      exact hargs (List.length_eq_zero.mp h0)
    unfold logDelegate
    simp [Command.acceptNoGeneralArgs, Command.validateArgBounds, Command.getSupportedMap,
      hargs, hlen]

/-- C9. For every invocation: if -r is present with argument list `R`,
`graft.delegate` returns `{vcs: 'git', name: 'cherrypick'}`, the general
argument list becomes exactly `R` and the option map is unchanged; if -r is
absent it throws an error and leaves the invocation as it was. -/
theorem graft_moves_revisions_to_args (engine : Engine) (command : Command) :
    (∀ R, command.supportedMap.get "-r" = some R →
        (graftDelegate engine command).result = .ok ⟨"git", "cherrypick"⟩ ∧
          (graftDelegate engine command).command.generalArgs = R ∧
          (graftDelegate engine command).command.supportedMap = command.supportedMap) ∧
      (command.supportedMap.get "-r" = none →
        (∃ e, (graftDelegate engine command).result = .error e) ∧
          (graftDelegate engine command).command = command) := by
  refine ⟨?_, ?_⟩
  · intro R hR
    unfold graftDelegate
    simp [Command.getSupportedMap, Command.setGeneralArgs, hR]
  · intro hnone
    unfold graftDelegate
    simp [Command.getSupportedMap, hnone]

/-- C10. For every invocation `commit.delegate` does not throw and returns
`{vcs: 'git', name: 'commit'}`; it appends exactly one warning, the catalog
entry `hg-a-option`, when -A is present and none when -A is absent; the option
map and the general argument list are unchanged in both cases. -/
theorem commit_warns_iff_all_flag (engine : Engine) (command : Command) :
    (commitDelegate engine command).result = .ok ⟨"git", "commit"⟩ ∧
      (command.supportedMap.has "-A" = true →
        (commitDelegate engine command).command.warnings =
          command.warnings ++ [Msg.intl "hg-a-option"]) ∧
      (command.supportedMap.has "-A" = false →
        (commitDelegate engine command).command.warnings = command.warnings) ∧
      (commitDelegate engine command).command.supportedMap = command.supportedMap ∧
      (commitDelegate engine command).command.generalArgs = command.generalArgs := by
  by_cases hA : command.supportedMap.has "-A" = true
  · unfold commitDelegate
    simp [Command.getSupportedMap, Command.addWarning, hA]
  · unfold commitDelegate
    simp [Command.getSupportedMap, hA]

/-! ## The direct handlers: status and rebase -/

theorem lookupKey_assignKey_ne (k k' : String) (hne : k ≠ k') (v : List String)
    (l : List (String × List String)) : lookupKey k (assignKey k' v l) = lookupKey k l := by
  induction l with
  | nil =>
    have h : ¬ k' = k := fun e => hne e.symm
    simp [assignKey, lookupKey, h]
  | cons p rest ih =>
    obtain ⟨k'', v'⟩ := p
    by_cases h : k'' = k'
    · have h2 : ¬ k'' = k := fun e => hne (e.symm.trans h)
      rw [assignKey, if_pos h, lookupKey, if_neg h2, lookupKey, if_neg h2]
    · by_cases h3 : k'' = k
      · rw [assignKey, if_neg h, lookupKey, if_pos h3, lookupKey, if_pos h3]
      · rw [assignKey, if_neg h, lookupKey, if_neg h3, lookupKey, if_neg h3, ih]

/-- C11. For every invocation state `status.execute` throws the error whose
message is the catalog entry `hg-error-no-status`, makes no call on the engine
and does not modify the invocation. -/
theorem status_is_unsupported (engine : Engine) (command : Command) :
    (statusExecute engine command).result =
        .error (.gitError (.intl "hg-error-no-status")) ∧
      (statusExecute engine command).engine = engine ∧
      (statusExecute engine command).command = command := by
  exact ⟨rfl, rfl, rfl⟩

/-- C12 does not hold on the code. On `hg rebase` (neither -d nor -s)
`rebase.execute` returns normally, with no error and no call on the engine; on
`hg rebase -d C1 -s C2` (both) it returns normally after one call of
`hgRebase` with destination `C1`. -/
theorem rebase_ambiguous_destination_not_rejected :
    (rebaseExecute Command.mapDotToHead ⟨[]⟩ ⟨⟨[]⟩, [], []⟩).result = .ok () ∧
      (rebaseExecute Command.mapDotToHead ⟨[]⟩ ⟨⟨[]⟩, [], []⟩).engine.hgRebaseCalls = [] ∧
      (rebaseExecute Command.mapDotToHead ⟨[]⟩
        ⟨⟨[("-d", ["C1"]), ("-s", ["C2"])]⟩, [], []⟩).result = .ok () ∧
      (rebaseExecute Command.mapDotToHead ⟨[]⟩
        ⟨⟨[("-d", ["C1"]), ("-s", ["C2"])]⟩, [], []⟩).engine.hgRebaseCalls =
        [("C1", some ".")] := by
  refine ⟨rfl, by decide, rfl, by decide⟩

/-- C13. The definitions with a direct handler are status and rebase. For
every invocation, and whatever the placeholder helper does to the invocation:
a handler that throws has made no call on the engine, and a run of
`rebase.execute` adds at most one `hgRebase` call, as its last step. -/
theorem direct_handlers_fail_before_engine_call (mapDotToHead : Command → Command)
    (engine : Engine) (command : Command) :
    ((commandConfig mapDotToHead).filter fun d => d.execute.isSome).map (fun d => d.name) =
        ["status", "rebase"] ∧
      (statusExecute engine command).engine = engine ∧
      ((∃ e, (rebaseExecute mapDotToHead engine command).result = .error e) →
        (rebaseExecute mapDotToHead engine command).engine = engine) ∧
      ((rebaseExecute mapDotToHead engine command).engine = engine ∨
        ∃ dest base, (rebaseExecute mapDotToHead engine command).result = .ok () ∧
          (rebaseExecute mapDotToHead engine command).engine.hgRebaseCalls =
            engine.hgRebaseCalls ++ [(dest, base)]) := by
  refine ⟨rfl, rfl, ?_, ?_⟩
  · unfold rebaseExecute
    simp only
    split
    · split
      · intro _; trivial
      · split
        · intro _; trivial
        · rintro ⟨e, he⟩
          cases he
    · intro _; trivial
  · unfold rebaseExecute
    simp only
    split
    · split
      · exact Or.inl rfl
      · split
        · exact Or.inl rfl
        · exact Or.inr ⟨_, _, rfl, rfl⟩
    · exact Or.inl rfl

/-- C14 does not hold on the code. On `hg bookmark -d old -r C1` the message
of the error thrown by `bookmark.delegate` is a string literal of the handler,
not a catalog entry; the sibling `graft.delegate` without -r throws with the
catalog entry `git-error-options`. -/
theorem bookmark_error_message_is_literal :
    (bookmarkDelegate ⟨[]⟩ ⟨⟨[("-d", ["old"]), ("-r", ["C1"])]⟩, [], []⟩).result =
        .error (.gitError (.literal "-r is incompatible with -d")) ∧
      (graftDelegate ⟨[]⟩ ⟨⟨[]⟩, [], []⟩).result =
        .error (.gitError (.intl "git-error-options")) := by
  exact ⟨rfl, rfl⟩

/-- C18 does not hold on the code. On `hg rebase -d C1 -b` the option -b is
present with no argument, so the default is not injected, and `hgRebase` is
called with an undefined base. -/
theorem rebase_passes_undefined_base :
    (rebaseExecute Command.mapDotToHead ⟨[]⟩
        ⟨⟨[("-d", ["C1"]), ("-b", [])]⟩, [], []⟩).result = .ok () ∧
      (rebaseExecute Command.mapDotToHead ⟨[]⟩
        ⟨⟨[("-d", ["C1"]), ("-b", [])]⟩, [], []⟩).engine.hgRebaseCalls = [("C1", none)] := by
  refine ⟨rfl, by decide⟩

/-! ## Placeholder substitution -/

theorem mapDotToHead_idem (c : Command) :
    Command.mapDotToHead (Command.mapDotToHead c) = Command.mapDotToHead c := by
  have h : ∀ a : String,
      (if (if a = "." then "HEAD" else a) = "." then "HEAD" else if a = "." then "HEAD" else a) =
        if a = "." then "HEAD" else a := by
    intro a
    by_cases ha : a = "."
    · have h2 : ¬ ("HEAD" = ".") := by decide
      simp [ha, h2]
    · simp [ha]
  simp [Command.mapDotToHead, Command.setGeneralArgs, h]

/-- C15. Running `export.delegate` twice in succession leaves the same option
map and general argument list as running it once, and returns the same
descriptor `{vcs: 'git', name: 'show'}`. -/
theorem export_twice_is_export_once (engine : Engine) (command : Command) :
    (exportDelegate Command.mapDotToHead
          (exportDelegate Command.mapDotToHead engine command).engine
          (exportDelegate Command.mapDotToHead engine command).command).command.supportedMap =
        (exportDelegate Command.mapDotToHead engine command).command.supportedMap ∧
      (exportDelegate Command.mapDotToHead
          (exportDelegate Command.mapDotToHead engine command).engine
          (exportDelegate Command.mapDotToHead engine command).command).command.generalArgs =
        (exportDelegate Command.mapDotToHead engine command).command.generalArgs ∧
      (exportDelegate Command.mapDotToHead
          (exportDelegate Command.mapDotToHead engine command).engine
          (exportDelegate Command.mapDotToHead engine command).command).result =
        (exportDelegate Command.mapDotToHead engine command).result ∧
      (exportDelegate Command.mapDotToHead engine command).result = .ok ⟨"git", "show"⟩ := by
  refine ⟨?_, ?_, rfl, rfl⟩
  · unfold exportDelegate
    simp only [mapDotToHead_idem]
  · unfold exportDelegate
    simp only [mapDotToHead_idem]

/-- C16, as stated, fails on `hg rebase -d C1`: -d is present with the
non-empty first argument `C1`, -s and -b are absent; the default `.` is
injected, the placeholder helper rewrites the general arguments only, and
`hgRebase` is called once with the base `.`, not `HEAD`. -/
theorem rebase_default_base_stays_dot :
    (⟨[("-d", ["C1"])]⟩ : OptionMap).get "-d" = some ["C1"] ∧
      (⟨[("-d", ["C1"])]⟩ : OptionMap).has "-s" = false ∧
      (⟨[("-d", ["C1"])]⟩ : OptionMap).get "-b" = none ∧
      (rebaseExecute Command.mapDotToHead ⟨[]⟩ ⟨⟨[("-d", ["C1"])]⟩, [], []⟩).result = .ok () ∧
      (rebaseExecute Command.mapDotToHead ⟨[]⟩
        ⟨⟨[("-d", ["C1"])]⟩, [], []⟩).engine.hgRebaseCalls = [("C1", some ".")] ∧
      (rebaseExecute Command.mapDotToHead ⟨[]⟩
        ⟨⟨[("-d", ["C1"])]⟩, [], []⟩).engine.hgRebaseCalls ≠ [("C1", some "HEAD")] := by
  refine ⟨by decide, by decide, by decide, rfl, by decide, by decide⟩

/-- C16, amended. With the placeholder helper substituting in the general
arguments only: for every invocation in which -d is present with a non-empty
first argument `d` and -s is absent, `rebase.execute` returns normally and
calls `hgRebase` exactly once, with destination `d` as given; the base is the
first -b argument as given when -b has one, and the injected default `.` when
-b is absent. -/
theorem rebase_calls_engine_once_with_given_args (engine : Engine) (command : Command)
    (d : String) (ds : List String)
    (hd : command.supportedMap.get "-d" = some (d :: ds)) (hdne : d ≠ "")
    (_hs : command.supportedMap.has "-s" = false) :
    (rebaseExecute Command.mapDotToHead engine command).result = .ok () ∧
      (∀ b bs, command.supportedMap.get "-b" = some (b :: bs) →
        (rebaseExecute Command.mapDotToHead engine command).engine.hgRebaseCalls =
          engine.hgRebaseCalls ++ [(d, some b)]) ∧
      (command.supportedMap.get "-b" = none →
        (rebaseExecute Command.mapDotToHead engine command).engine.hgRebaseCalls =
          engine.hgRebaseCalls ++ [(d, some ".")]) := by
  have htruthy : jsTruthy (some d) = some d := by
    simp [jsTruthy, hdne]
  have hmap : ∀ c : Command, (Command.mapDotToHead c).supportedMap = c.supportedMap :=
    fun _ => rfl
  cases hb : command.supportedMap.get "-b" with
  | none =>
    have hhas : command.supportedMap.has "-b" = false := by simp [OptionMap.has, hb]
    have hd' : (command.supportedMap.set "-b" ["."]).get "-d" = some (d :: ds) := by
      have := lookupKey_assignKey_ne "-d" "-b" (by decide) ["."] command.supportedMap.entries
      simpa [OptionMap.get, OptionMap.set, this] using hd
    have hb' : (command.supportedMap.set "-b" ["."]).get "-b" = some ["."] := by
      simp [OptionMap.get, OptionMap.set, lookupKey_assignKey_self]
    unfold rebaseExecute
    simp [Command.getSupportedMap, Command.setSupportedMap, hhas, hmap, hd', hb', htruthy,
      Engine.hgRebase]
  | some B =>
    have hhas : command.supportedMap.has "-b" = true := by simp [OptionMap.has, hb]
    have hc : command.setSupportedMap command.supportedMap = command := rfl
    refine ⟨?_, ?_, fun h => by cases h⟩
    · unfold rebaseExecute
      simp [Command.getSupportedMap, hhas, hc, hmap, hd, hb, htruthy]
    · intro b bs hB
      cases hB
      unfold rebaseExecute
      simp [Command.getSupportedMap, hhas, hc, hmap, hd, hb, htruthy, Engine.hgRebase]

/-- Witness of C16 amended on `hg rebase -d C1 -b C2`. -/
theorem rebase_calls_engine_once_with_given_args_witness :
    (rebaseExecute Command.mapDotToHead ⟨[]⟩
        ⟨⟨[("-d", ["C1"]), ("-b", ["C2"])]⟩, [], []⟩).result = .ok () ∧
      (rebaseExecute Command.mapDotToHead ⟨[]⟩
        ⟨⟨[("-d", ["C1"]), ("-b", ["C2"])]⟩, [], []⟩).engine.hgRebaseCalls =
        [("C1", some "C2")] :=
  have h := rebase_calls_engine_once_with_given_args ⟨[]⟩
    ⟨⟨[("-d", ["C1"]), ("-b", ["C2"])]⟩, [], []⟩ "C1" [] (by decide) (by decide) (by decide)
  ⟨h.1, h.2.1 "C2" [] (by decide)⟩

/-! ## What the bookmark handler reads -/

theorem lookupKey_of_not_key (k : String) (l : List (String × List String))
    (h : ∀ p ∈ l, p.1 ≠ k) : lookupKey k l = none := by
  induction l with
  | nil => rfl
  | cons p rest ih =>
    obtain ⟨k', v'⟩ := p
    have hk : ¬ k' = k := h (k', v') (by simp)
    rw [lookupKey, if_neg hk]
    exact ih fun q hq => h q (by simp [hq])

theorem bookmarkDelegate_result_congr (engine₁ engine₂ : Engine) (command₁ command₂ : Command)
    (hargs : command₁.generalArgs = command₂.generalArgs)
    (hr : command₁.supportedMap.get "-r" = command₂.supportedMap.get "-r")
    (hd : command₁.supportedMap.get "-d" = command₂.supportedMap.get "-d")
    (hm : command₁.supportedMap.get "-m" = command₂.supportedMap.get "-m") :
    (bookmarkDelegate engine₁ command₁).result = (bookmarkDelegate engine₂ command₂).result := by
  unfold bookmarkDelegate
  simp only [Command.getSupportedMap, Command.getGeneralArgs, OptionMap.has, lengthOrZero, hr,
    hd, hm, hargs]
  split_ifs
  · rfl
  · rfl
  · rfl
  · rfl
  · cases command₂.supportedMap.get "-d" with
    | some a => rfl
    | none =>
      cases command₂.supportedMap.get "-r" with
      | some a => rfl
      | none =>
        cases command₂.generalArgs with
        | nil => rfl
        | cons a l => rfl

/-- C19. The bookmark definition declares the flags -r, -f and -d. For every
two invocations whose option maps hold only declared flags, with the same
general argument list and the same entries for -r, -f and -d,
`bookmark.delegate` gives the same result: it throws on both, or returns on
both a descriptor with the same name. -/
theorem bookmark_outcome_depends_on_declared_flags (mapDotToHead : Command → Command)
    (engine₁ engine₂ : Engine) (command₁ command₂ : Command)
    (hkeys₁ : ∀ p ∈ command₁.supportedMap.entries, p.1 ∈ ["-r", "-f", "-d"])
    (hkeys₂ : ∀ p ∈ command₂.supportedMap.entries, p.1 ∈ ["-r", "-f", "-d"])
    (hargs : command₁.generalArgs = command₂.generalArgs)
    (hr : command₁.supportedMap.get "-r" = command₂.supportedMap.get "-r")
    (_hf : command₁.supportedMap.get "-f" = command₂.supportedMap.get "-f")
    (hd : command₁.supportedMap.get "-d" = command₂.supportedMap.get "-d") :
    (((commandConfig mapDotToHead).filter fun d => d.name = "bookmark").map
        (fun d => d.options) = [["-r", "-f", "-d"]]) ∧
      (bookmarkDelegate engine₁ command₁).result = (bookmarkDelegate engine₂ command₂).result ∧
      ((∃ e₁ e₂, (bookmarkDelegate engine₁ command₁).result = .error e₁ ∧
          (bookmarkDelegate engine₂ command₂).result = .error e₂) ∨
        ∃ d₁ d₂, (bookmarkDelegate engine₁ command₁).result = .ok d₁ ∧
          (bookmarkDelegate engine₂ command₂).result = .ok d₂ ∧ d₁.name = d₂.name) := by
  have hnot : ∀ c : Command, (∀ p ∈ c.supportedMap.entries, p.1 ∈ ["-r", "-f", "-d"]) →
      c.supportedMap.get "-m" = none := by
    intro c hc
    apply lookupKey_of_not_key
    intro p hp e
    have := hc p hp
    rw [e] at this
    revert this
    decide
  have heq : (bookmarkDelegate engine₁ command₁).result =
      (bookmarkDelegate engine₂ command₂).result :=
    bookmarkDelegate_result_congr engine₁ engine₂ command₁ command₂ hargs hr hd
      ((hnot command₁ hkeys₁).trans (hnot command₂ hkeys₂).symm)
  refine ⟨rfl, heq, ?_⟩
  rw [heq]
  cases (bookmarkDelegate engine₂ command₂).result with
  | error e => exact Or.inl ⟨e, e, rfl, rfl⟩
  | ok d => exact Or.inr ⟨d, d, rfl, rfl, rfl⟩

/-- Witness of C19 on `hg bookmark -d old -f` against `hg bookmark -f -d old`
run on another engine state and with a warning already attached. -/
theorem bookmark_outcome_depends_on_declared_flags_witness :
    (bookmarkDelegate ⟨[]⟩ ⟨⟨[("-d", ["old"]), ("-f", [])]⟩, [], []⟩).result =
      (bookmarkDelegate ⟨[("C1", none)]⟩
        ⟨⟨[("-f", []), ("-d", ["old"])]⟩, [], [Msg.intl "hg-a-option"]⟩).result :=
  (bookmark_outcome_depends_on_declared_flags Command.mapDotToHead ⟨[]⟩ ⟨[("C1", none)]⟩
    ⟨⟨[("-d", ["old"]), ("-f", [])]⟩, [], []⟩
    ⟨⟨[("-f", []), ("-d", ["old"])]⟩, [], [Msg.intl "hg-a-option"]⟩
    (by decide) (by decide) rfl (by decide) (by decide) (by decide)).2.1

/-! ## The patterns of the table -/

theorem mem_ends_lit {s : String} {p q : Pos} (h : q ∈ (Regex.lit s).ends p) :
    p.rest = s.data ++ q.rest := by
  simp only [Regex.ends] at h
  split_ifs at h with hp
  · simp only [List.mem_singleton] at h
    subst h
    obtain ⟨t, ht⟩ := List.isPrefixOf_iff_prefix.mp hp
    rw [← ht]
    simp
  · simp at h

theorem mem_ends_seq {a b : Regex} {p q : Pos} (h : q ∈ (Regex.seq a b).ends p) :
    ∃ m, m ∈ a.ends p ∧ q ∈ b.ends m := by
  simpa [Regex.ends, List.mem_flatMap] using h

theorem mem_ends_alt {a b : Regex} {p q : Pos} (h : q ∈ (Regex.alt a b).ends p) :
    q ∈ a.ends p ∨ q ∈ b.ends p := by
  simpa [Regex.ends] using h

theorem mem_ends_bol {p q : Pos} (h : q ∈ Regex.bol.ends p) : p.atStart = true ∧ q = p := by
  simp only [Regex.ends] at h
  split_ifs at h with hp
  · exact ⟨hp, by simpa using h⟩
  · simp at h

theorem mem_ends_eol {p q : Pos} (h : q ∈ Regex.eol.ends p) : p.rest = [] ∧ q = p := by
  simp only [Regex.ends] at h
  split_ifs at h with hp
  · exact ⟨by simpa using hp, by simpa using h⟩
  · simp at h

theorem mem_ends_ws {p q : Pos} (h : q ∈ Regex.ws.ends p) :
    ∃ c, isJsWhitespace c = true ∧ p.rest = c :: q.rest := by
  simp only [Regex.ends] at h
  split at h
  · rename_i c t hp
    split_ifs at h with hc
    · simp only [List.mem_singleton] at h
      subst h
      exact ⟨c, hc, hp⟩
    · simp at h
  · simp at h

theorem mem_iterEnds_spaces (n : Nat) : ∀ p q : Pos, q ∈ iterEnds (Regex.lit " ").ends n p →
    ∃ k, p.rest = List.replicate k ' ' ++ q.rest := by
  induction n with
  | zero =>
    intro p q h
    simp only [iterEnds, List.mem_singleton] at h
    subst h
    exact ⟨0, by simp⟩
  | succ n ih =>
    intro p q h
    simp only [iterEnds, List.mem_cons, List.mem_flatMap, List.mem_filter] at h
    rcases h with h | ⟨m, ⟨hm, _⟩, hq⟩
    · subst h
      exact ⟨0, by simp⟩
    · obtain ⟨k, hk⟩ := ih m q hq
      have h1 := mem_ends_lit hm
      refine ⟨k + 1, ?_⟩
      rw [h1, hk]
      simp [List.replicate_succ]

theorem mem_ends_hgSpaces {p q : Pos} (h : q ∈ Regex.hgSpaces.ends p) :
    p.atStart = true ∧ ∃ k, p.rest = 'h' :: 'g' :: ' ' :: (List.replicate k ' ' ++ q.rest) := by
  unfold Regex.hgSpaces at h
  obtain ⟨a, ha, h₁⟩ := mem_ends_seq h
  obtain ⟨hstart, rfl⟩ := mem_ends_bol ha
  obtain ⟨b, hb, h₂⟩ := mem_ends_seq h₁
  have e₁ := mem_ends_lit hb
  simp only [Regex.ends, List.mem_flatMap] at h₂
  obtain ⟨c, hc, h₃⟩ := h₂
  have e₂ := mem_ends_lit (s := " ") (by simpa [Regex.ends] using hc)
  obtain ⟨k, hk⟩ := mem_iterEnds_spaces _ _ _ h₃
  refine ⟨hstart, k, ?_⟩
  rw [e₁, e₂, hk]
  rfl

theorem tail_endOrWs {p q : Pos} (h : q ∈ Regex.endOrWs.ends p) : tailOK p.rest := by
  unfold Regex.endOrWs at h
  rcases mem_ends_alt h with h | h
  · exact Or.inl (mem_ends_eol h).1
  · obtain ⟨c, hc, hp⟩ := mem_ends_ws h
    exact Or.inr ⟨c, _, hp, hc⟩

theorem tail_endOrWsPlus {p q : Pos} (h : q ∈ Regex.endOrWsPlus.ends p) : tailOK p.rest := by
  unfold Regex.endOrWsPlus at h
  rcases mem_ends_alt h with h | h
  · exact Or.inl (mem_ends_eol h).1
  · simp only [Regex.ends, List.mem_flatMap] at h
    obtain ⟨m, hm, _⟩ := h
    obtain ⟨c, hc, hp⟩ := mem_ends_ws (q := m) (by simpa [Regex.ends] using hm)
    exact Or.inr ⟨c, _, hp, hc⟩

theorem tail_spacesEnd {p q : Pos} (h : q ∈ Regex.spacesEnd.ends p) : tailOK p.rest := by
  unfold Regex.spacesEnd at h
  obtain ⟨m, hm, h₁⟩ := mem_ends_seq h
  obtain ⟨hnil, rfl⟩ := mem_ends_eol h₁
  simp only [Regex.ends] at hm
  obtain ⟨k, hk⟩ := mem_iterEnds_spaces _ _ _ hm
  rw [hnil, List.append_nil] at hk
  cases k with
  | zero => exact Or.inl (by simpa using hk)
  | succ k => exact Or.inr ⟨' ', List.replicate k ' ', by simpa [List.replicate_succ] using hk, by decide⟩

theorem words_lit (s : String) : Words (Regex.lit s) [s] := by
  intro p q h
  exact ⟨s, by simp, mem_ends_lit h⟩

theorem words_alt {a b : Regex} {wa wb : List String} (ha : Words a wa) (hb : Words b wb) :
    Words (Regex.alt a b) (wa ++ wb) := by
  intro p q h
  rcases mem_ends_alt h with h | h
  · obtain ⟨w, hw, e⟩ := ha p q h
    exact ⟨w, by simp [hw], e⟩
  · obtain ⟨w, hw, e⟩ := hb p q h
    exact ⟨w, by simp [hw], e⟩

theorem shape_of_parts {W T : Regex} {ws : List String} (hW : Words W ws)
    (hT : ∀ p q, q ∈ T.ends p → tailOK p.rest) :
    Shape (Regex.seq Regex.hgSpaces (Regex.seq W T)) ws false := by
  intro p q h
  obtain ⟨a, ha, h₁⟩ := mem_ends_seq h
  obtain ⟨hstart, k, hk⟩ := mem_ends_hgSpaces ha
  obtain ⟨b, hb, h₂⟩ := mem_ends_seq h₁
  obtain ⟨w, hw, e⟩ := hW a b hb
  refine ⟨hstart, k, w, b.rest, hw, ?_, hT b q h₂, fun h => by cases h⟩
  rw [hk, e]

theorem shape_bookmark {W : Regex} {ws : List String} (hW : Words W ws) :
    Shape (Regex.seq Regex.bol (Regex.seq (Regex.lit "hg ") (Regex.seq W Regex.endOrWs))) ws
      true := by
  intro p q h
  obtain ⟨a, ha, h₁⟩ := mem_ends_seq h
  obtain ⟨hstart, rfl⟩ := mem_ends_bol ha
  obtain ⟨b, hb, h₂⟩ := mem_ends_seq h₁
  have e₁ := mem_ends_lit hb
  obtain ⟨c, hc, h₃⟩ := mem_ends_seq h₂
  obtain ⟨w, hw, e⟩ := hW b c hc
  refine ⟨hstart, 0, w, c.rest, hw, ?_, tail_endOrWs h₃, fun _ => rfl⟩
  rw [e₁, e]
  rfl

theorem positions_false (s : List Char) : ∀ p ∈ positions false s, p.atStart = false := by
  induction s with
  | nil => intro p hp; simp [positions] at hp; simp [hp]
  | cons c t ih =>
    intro p hp
    simp only [positions, List.mem_cons] at hp
    rcases hp with rfl | hp
    · rfl
    · exact ih p hp

theorem test_shape {r : Regex} {ws : List String} {single : Bool} (hr : Shape r ws single)
    (line : String) (h : r.test line = true) :
    ∃ k w t, w ∈ ws ∧ line.data = 'h' :: 'g' :: ' ' :: (List.replicate k ' ' ++ (w.data ++ t)) ∧
      tailOK t ∧ (single = true → k = 0) := by
  unfold Regex.test at h
  rw [List.any_eq_true] at h
  obtain ⟨p, hp, hne⟩ := h
  have hex : ∃ q, q ∈ r.ends p := by
    cases hq : r.ends p with
    | nil => simp [hq] at hne
    | cons q l => exact ⟨q, by simp⟩
  obtain ⟨q, hq⟩ := hex
  obtain ⟨hstart, k, w, t, hw, e, ht, hk⟩ := hr p q hq
  have hp' : p = ⟨true, line.data⟩ := by
    cases hl : line.data with
    | nil =>
      rw [hl] at hp
      simpa [positions] using hp
    | cons c u =>
      rw [hl] at hp
      simp only [positions, List.mem_cons] at hp
      rcases hp with rfl | hp
      · rfl
      · have := positions_false u p hp
        rw [hstart] at this
        cases this
  subst hp'
  exact ⟨k, w, t, hw, e, ht, hk⟩

theorem dropWhile_spaces (k : Nat) (c : Char) (l : List Char) (hc : c ≠ ' ') :
    (List.replicate k ' ' ++ c :: l).dropWhile (fun c => c = ' ') = c :: l := by
  induction k with
  | zero => simp [List.dropWhile, hc]
  | succ k ih => simpa [List.replicate_succ, List.dropWhile] using ih

theorem takeWhile_word (w t : List Char) (hw : ∀ c ∈ w, isJsWhitespace c = false)
    (ht : tailOK t) : (w ++ t).takeWhile (fun c => !isJsWhitespace c) = w := by
  induction w with
  | nil =>
    rcases ht with rfl | ⟨c, u, rfl, hc⟩
    · rfl
    · simp [List.takeWhile, hc]
  | cons a w ih =>
    have ha : isJsWhitespace a = false := hw a (by simp)
    have ih' := ih (fun c hc => hw c (by simp [hc]))
    simp [List.takeWhile_cons, ha, ih']

theorem commandWord_of_shape (k : Nat) (w : String) (t : List Char) (hw : cleanWord w = true)
    (ht : tailOK t) :
    commandWord ('h' :: 'g' :: ' ' :: (List.replicate k ' ' ++ (w.data ++ t))) = some w.data := by
  unfold cleanWord at hw
  simp only [Bool.and_eq_true, Bool.not_eq_true', List.all_eq_true] at hw
  obtain ⟨hne, hall⟩ := hw
  have hall' : ∀ c ∈ w.data, isJsWhitespace c = false := by
    intro c hc
    simpa using hall c hc
  cases hd : w.data with
  | nil => simp [hd] at hne
  | cons c u =>
    have hc : c ≠ ' ' := by
      intro e
      have := hall' c (by simp [hd])
      rw [e] at this
      revert this
      decide
    simp only [commandWord, and_self, if_true, List.cons_append, Option.some.injEq]
    rw [dropWhile_spaces k c _ hc]
    have := takeWhile_word (c :: u) t (by rw [← hd]; exact hall') ht
    simpa using this

theorem config_shape (m : Command → Command) :
    ∀ d ∈ commandConfig m, Shape d.regex (aliases d.name) (d.name = "bookmark") := by
  intro d hd
  simp only [commandConfig, List.mem_cons, List.mem_singleton, List.not_mem_nil, or_false] at hd
  rcases hd with h | h | h | h | h | h | h | h | h | h | h | h <;> subst h
  · exact shape_of_parts (words_alt (words_lit _) (words_lit _)) (fun _ _ => tail_endOrWs)
  · exact shape_of_parts (words_alt (words_lit _) (words_lit _)) (fun _ _ => tail_spacesEnd)
  · exact shape_of_parts (words_lit _) (fun _ _ => tail_endOrWs)
  · exact shape_of_parts (words_lit _) (fun _ _ => tail_endOrWs)
  · exact shape_of_parts (words_lit _) (fun _ _ => tail_endOrWs)
  · exact shape_bookmark (words_alt (words_lit _) (words_alt (words_lit _) (words_lit _)))
  · exact shape_of_parts (words_lit _) (fun _ _ => tail_endOrWsPlus)
  · exact shape_of_parts (words_alt (words_lit _) (words_lit _)) (fun _ _ => tail_endOrWsPlus)
  · exact shape_of_parts (words_lit _) (fun _ _ => tail_endOrWsPlus)
  · exact shape_of_parts (words_lit _) (fun _ _ => tail_endOrWsPlus)
  · exact shape_of_parts (words_lit _) (fun _ _ => tail_endOrWsPlus)
  · exact shape_of_parts (words_alt (words_lit _) (words_lit _)) (fun _ _ => tail_spacesEnd)

theorem aliases_clean_owner (m : Command → Command) :
    ∀ d ∈ commandConfig m, ∀ w ∈ aliases d.name, cleanWord w = true ∧ ownerOf w = d.name := by
  intro d hd
  simp only [commandConfig, List.mem_cons, List.mem_singleton, List.not_mem_nil, or_false] at hd
  rcases hd with h | h | h | h | h | h | h | h | h | h | h | h <;> subst h <;> intro w hw <;>
    simp [aliases] at hw
  all_goals first
    | (rcases hw with rfl | rfl | rfl <;> exact ⟨by decide, by rfl⟩)

theorem test_word (m : Command → Command) (line : String) :
    ∀ d ∈ commandConfig m, d.regex.test line = true →
      ∃ w, commandWord line.data = some w.data ∧ ownerOf w = d.name := by
  intro d hd ht
  obtain ⟨k, w, t, hw, e, htail, _⟩ := test_shape (config_shape m d hd) line ht
  obtain ⟨hclean, hown⟩ := aliases_clean_owner m d hd w hw
  exact ⟨w, by rw [e]; exact commandWord_of_shape k w t hclean htail, hown⟩

theorem test_same_name (m : Command → Command) (line : String) :
    ∀ d₁ ∈ commandConfig m, ∀ d₂ ∈ commandConfig m,
      d₁.regex.test line = true → d₂.regex.test line = true → d₁.name = d₂.name := by
  intro d₁ h₁ d₂ h₂ t₁ t₂
  obtain ⟨w₁, e₁, o₁⟩ := test_word m line d₁ h₁ t₁
  obtain ⟨w₂, e₂, o₂⟩ := test_word m line d₂ h₂ t₂
  rw [e₁] at e₂
  have hw : w₁ = w₂ := String.ext (Option.some.inj e₂)
  rw [← o₁, ← o₂, hw]

theorem length_le_one_of_same_key {α : Type} (f : α → String) :
    ∀ l : List α, (l.map f).Nodup → (∀ x ∈ l, ∀ y ∈ l, f x = f y) → l.length ≤ 1
  | [], _, _ => by simp
  | [_], _, _ => by simp
  | x :: y :: l, hn, h => by
    have hxy : f x = f y := h x (by simp) y (by simp)
    simp [hxy] at hn

/-- C17. For every line, at most one of the twelve patterns of `commandConfig`
matches it; so in every reordering of the table the first definition whose
pattern matches has the same name as any definition that matches. -/
theorem patterns_mutually_exclusive (mapDotToHead : Command → Command) (line : String) :
    ((commandConfig mapDotToHead).filter fun d => d.regex.test line).length ≤ 1 ∧
      ∀ table : List CommandDefinition, table.Perm (commandConfig mapDotToHead) →
        ∀ d ∈ commandConfig mapDotToHead, d.regex.test line = true →
          (table.find? fun d => d.regex.test line).map (fun d => d.name) = some d.name := by
  refine ⟨?_, ?_⟩
  · apply length_le_one_of_same_key (fun d => d.name)
    · have hnames : ((commandConfig mapDotToHead).map fun d => d.name).Nodup := by
        have e : ((commandConfig mapDotToHead).map fun d => d.name) =
            ["commit", "status", "export", "graft", "log", "bookmark", "rebase", "update",
              "backout", "histedit", "pull", "summary"] := rfl
        rw [e]
        decide
      exact List.Nodup.sublist (List.Sublist.map _ (List.filter_sublist _)) hnames
    · intro x hx y hy
      rw [List.mem_filter] at hx hy
      exact test_same_name mapDotToHead line x hx.1 y hy.1 hx.2 hy.2
  · intro table hperm d hd ht
    cases hfind : table.find? fun d => d.regex.test line with
    | none =>
      rw [List.find?_eq_none] at hfind
      have := hfind d (hperm.mem_iff.mpr hd)
      simp [ht] at this
    | some d' =>
      have hmem : d' ∈ commandConfig mapDotToHead := hperm.mem_iff.mp (List.mem_of_find?_eq_some hfind)
      have htest : d'.regex.test line = true := by
        simpa using List.find?_some hfind
      simp only [Option.map_some', Option.some.injEq]
      exact test_same_name mapDotToHead line d' hmem d hd htest ht

theorem lit_ends_append (s : String) (b : Bool) (t : List Char) :
    (Regex.lit s).ends ⟨b, s.data ++ t⟩ = [⟨b && s.data.isEmpty, t⟩] := by
  have h : s.data.isPrefixOf (s.data ++ t) = true :=
    List.isPrefixOf_iff_prefix.mpr (List.prefix_append _ _)
  simp [Regex.ends, h]

theorem accepts_lit (s : String) : Accepts (Regex.lit s) [s] := by
  intro w hw t
  simp only [List.mem_singleton] at hw
  subst hw
  rw [lit_ends_append]
  simp

theorem accepts_alt {a b : Regex} {wa wb : List String} (ha : Accepts a wa)
    (hb : Accepts b wb) : Accepts (Regex.alt a b) (wa ++ wb) := by
  intro w hw t
  simp only [Regex.ends, List.mem_append] at hw ⊢
  rcases hw with hw | hw
  · exact Or.inl (ha w hw t)
  · exact Or.inr (hb w hw t)

theorem self_mem_iterEnds (step : Pos → List Pos) (n : Nat) (p : Pos) :
    p ∈ iterEnds step n p := by
  cases n <;> simp [iterEnds]

theorem spaces_mem_iterEnds (k : Nat) : ∀ (n : Nat) (t : List Char), k ≤ n →
    (⟨false, t⟩ : Pos) ∈ iterEnds (Regex.lit " ").ends n ⟨false, List.replicate k ' ' ++ t⟩ := by
  induction k with
  | zero =>
    intro n t _
    simpa using self_mem_iterEnds _ n ⟨false, t⟩
  | succ k ih =>
    intro n t hn
    obtain ⟨n', rfl⟩ : ∃ n', n = n' + 1 := ⟨n - 1, by omega⟩
    have hstep : (Regex.lit " ").ends ⟨false, List.replicate (k + 1) ' ' ++ t⟩ =
        [⟨false, List.replicate k ' ' ++ t⟩] := by
      have := lit_ends_append " " false (List.replicate k ' ' ++ t)
      simpa [List.replicate_succ] using this
    simp only [iterEnds, hstep, List.mem_cons, List.mem_flatMap, List.mem_filter]
    refine Or.inr ⟨⟨false, List.replicate k ' ' ++ t⟩, ⟨by simp, by simp [List.replicate_succ]⟩, ?_⟩
    exact ih n' t (by omega)

theorem hgSpaces_reads (k : Nat) (t : List Char) :
    (⟨false, t⟩ : Pos) ∈ Regex.hgSpaces.ends ⟨true, 'h' :: 'g' :: (List.replicate (k + 1) ' ' ++ t)⟩ := by
  have h₁ : (Regex.lit "hg").ends ⟨true, 'h' :: 'g' :: (List.replicate (k + 1) ' ' ++ t)⟩ =
      [⟨false, List.replicate (k + 1) ' ' ++ t⟩] :=
    lit_ends_append "hg" true (List.replicate (k + 1) ' ' ++ t)
  have h₂ : (Regex.lit " ").ends ⟨false, List.replicate (k + 1) ' ' ++ t⟩ =
      [⟨false, List.replicate k ' ' ++ t⟩] := by
    have := lit_ends_append " " false (List.replicate k ' ' ++ t)
    simpa [List.replicate_succ] using this
  have h₃ := spaces_mem_iterEnds k (List.replicate k ' ' ++ t).length t (by simp)
  unfold Regex.hgSpaces
  rw [Regex.ends, Regex.ends]
  simp only [if_true, List.flatMap_cons, List.flatMap_nil, List.append_nil]
  rw [Regex.ends, h₁]
  simp only [List.flatMap_cons, List.flatMap_nil, List.append_nil]
  rw [Regex.ends, h₂]
  simpa using h₃

theorem endOrWs_at_end (b : Bool) : (⟨b, []⟩ : Pos) ∈ Regex.endOrWs.ends ⟨b, []⟩ := by
  simp [Regex.endOrWs, Regex.ends]

theorem endOrWsPlus_at_end (b : Bool) : (⟨b, []⟩ : Pos) ∈ Regex.endOrWsPlus.ends ⟨b, []⟩ := by
  simp [Regex.endOrWsPlus, Regex.ends]

theorem spacesEnd_at_end (b : Bool) : (⟨b, []⟩ : Pos) ∈ Regex.spacesEnd.ends ⟨b, []⟩ := by
  simp [Regex.spacesEnd, Regex.ends, iterEnds]

theorem test_of_start {r : Regex} {line : String} {q : Pos}
    (h : q ∈ r.ends ⟨true, line.data⟩) : r.test line = true := by
  unfold Regex.test
  rw [List.any_eq_true]
  refine ⟨⟨true, line.data⟩, ?_, ?_⟩
  · cases line.data <;> simp [positions]
  · cases hq : r.ends ⟨true, line.data⟩ with
    | nil => simp [hq] at h
    | cons a l => simp

theorem mem_ends_seq_of {a b : Regex} {p m q : Pos} (h₁ : m ∈ a.ends p) (h₂ : q ∈ b.ends m) :
    q ∈ (Regex.seq a b).ends p := by
  rw [Regex.ends, List.mem_flatMap]
  exact ⟨m, h₁, h₂⟩

theorem test_hgLine {W T : Regex} {ws : List String} (hW : Accepts W ws)
    (hT : (⟨false, []⟩ : Pos) ∈ T.ends ⟨false, []⟩) (k : Nat) (w : String) (hw : w ∈ ws) :
    (Regex.seq Regex.hgSpaces (Regex.seq W T)).test (hgLine (k + 1) w) = true := by
  apply test_of_start (q := ⟨false, []⟩)
  have h₁ := hgSpaces_reads k (w.data ++ [])
  have h₂ := hW w hw []
  have e : (hgLine (k + 1) w).data =
      'h' :: 'g' :: (List.replicate (k + 1) ' ' ++ (w.data ++ [])) := by
    simp [hgLine]
  rw [e]
  exact mem_ends_seq_of h₁ (mem_ends_seq_of h₂ hT)

theorem bookmark_test_hgLine_one {W : Regex} {ws : List String} (hW : Accepts W ws)
    (w : String) (hw : w ∈ ws) :
    (Regex.seq Regex.bol (Regex.seq (Regex.lit "hg ") (Regex.seq W Regex.endOrWs))).test
      (hgLine 1 w) = true := by
  apply test_of_start (q := ⟨false, []⟩)
  have e : (hgLine 1 w).data = "hg ".data ++ (w.data ++ []) := by
    rw [List.append_nil]
    rfl
  rw [e]
  have h₀ : (⟨true, "hg ".data ++ (w.data ++ [])⟩ : Pos) ∈
      Regex.bol.ends ⟨true, "hg ".data ++ (w.data ++ [])⟩ := by
    simp [Regex.ends]
  have h₁ : (⟨false, w.data ++ []⟩ : Pos) ∈
      (Regex.lit "hg ").ends ⟨true, "hg ".data ++ (w.data ++ [])⟩ := by
    rw [lit_ends_append]
    exact List.mem_singleton.mpr rfl
  exact mem_ends_seq_of h₀ (mem_ends_seq_of h₁
    (mem_ends_seq_of (hW w hw []) (endOrWs_at_end false)))

theorem config_accepts (m : Command → Command) (k : Nat) :
    ∀ d ∈ commandConfig m, ∀ w ∈ aliases d.name,
      (d.name ≠ "bookmark" → d.regex.test (hgLine (k + 1) w) = true) ∧
        (d.name = "bookmark" → d.regex.test (hgLine 1 w) = true) := by
  intro d hd
  simp only [commandConfig, List.mem_cons, List.mem_singleton, List.not_mem_nil, or_false] at hd
  rcases hd with h | h | h | h | h | h | h | h | h | h | h | h <;> subst h <;> intro w hw <;>
    dsimp only at hw ⊢ <;> simp [aliases] at hw
  · refine ⟨fun _ => ?_, fun he => absurd he (by decide)⟩
    exact test_hgLine (accepts_alt (accepts_lit _) (accepts_lit _)) (endOrWs_at_end _) k w
      (by simpa using hw)
  · refine ⟨fun _ => ?_, fun he => absurd he (by decide)⟩
    exact test_hgLine (accepts_alt (accepts_lit _) (accepts_lit _)) (spacesEnd_at_end _) k w
      (by simpa using hw)
  · refine ⟨fun _ => ?_, fun he => absurd he (by decide)⟩
    exact test_hgLine (accepts_lit _) (endOrWs_at_end _) k w (by simpa using hw)
  · refine ⟨fun _ => ?_, fun he => absurd he (by decide)⟩
    exact test_hgLine (accepts_lit _) (endOrWs_at_end _) k w (by simpa using hw)
  · refine ⟨fun _ => ?_, fun he => absurd he (by decide)⟩
    exact test_hgLine (accepts_lit _) (endOrWs_at_end _) k w (by simpa using hw)
  · refine ⟨fun hne => absurd rfl hne, fun _ => ?_⟩
    exact bookmark_test_hgLine_one
      (accepts_alt (accepts_lit _) (accepts_alt (accepts_lit _) (accepts_lit _))) w
      (by simpa using hw)
  · refine ⟨fun _ => ?_, fun he => absurd he (by decide)⟩
    exact test_hgLine (accepts_lit _) (endOrWsPlus_at_end _) k w (by simpa using hw)
  · refine ⟨fun _ => ?_, fun he => absurd he (by decide)⟩
    exact test_hgLine (accepts_alt (accepts_lit _) (accepts_lit _)) (endOrWsPlus_at_end _) k w
      (by simpa using hw)
  · refine ⟨fun _ => ?_, fun he => absurd he (by decide)⟩
    exact test_hgLine (accepts_lit _) (endOrWsPlus_at_end _) k w (by simpa using hw)
  · refine ⟨fun _ => ?_, fun he => absurd he (by decide)⟩
    exact test_hgLine (accepts_lit _) (endOrWsPlus_at_end _) k w (by simpa using hw)
  · refine ⟨fun _ => ?_, fun he => absurd he (by decide)⟩
    exact test_hgLine (accepts_lit _) (endOrWsPlus_at_end _) k w (by simpa using hw)
  · refine ⟨fun _ => ?_, fun he => absurd he (by decide)⟩
    exact test_hgLine (accepts_alt (accepts_lit _) (accepts_lit _)) (spacesEnd_at_end _) k w
      (by simpa using hw)

theorem bookmark_rejects_more_spaces (m : Command → Command) (k : Nat) (w : String) :
    ∀ d ∈ commandConfig m, d.name = "bookmark" → d.regex.test (hgLine (k + 2) w) = false := by
  intro d hd hname
  cases htest : d.regex.test (hgLine (k + 2) w) with
  | false => rfl
  | true =>
    exfalso
    obtain ⟨k', w', t, hw', e, _, hk'⟩ := test_shape (config_shape m d hd) _ htest
    have hzero : k' = 0 := hk' (by simp [hname])
    subst hzero
    rw [hname] at hw'
    simp [aliases] at hw'
    rcases hw' with rfl | rfl | rfl <;> simp [hgLine, List.replicate_succ] at e

/-- C20 does not hold on the code. The pattern of every definition but bookmark
matches `hg`, any positive number of spaces and any of its alias words; the
bookmark pattern matches with one space and rejects every line with two or
more spaces before an alias. So `hg  bookmark` (two spaces) matches no
pattern of the table, while `hg bookmark` selects bookmark and `hg  commit`
selects commit. -/
theorem spaces_tolerated_except_by_bookmark (mapDotToHead : Command → Command) (k : Nat) :
    (∀ d ∈ commandConfig mapDotToHead, d.name ≠ "bookmark" → ∀ w ∈ aliases d.name,
        d.regex.test (hgLine (k + 1) w) = true) ∧
      (∀ d ∈ commandConfig mapDotToHead, d.name = "bookmark" → ∀ w ∈ aliases d.name,
        d.regex.test (hgLine 1 w) = true ∧ d.regex.test (hgLine (k + 2) w) = false) ∧
      hgLine 2 "bookmark" = "hg  bookmark" ∧
      ((commandConfig mapDotToHead).filter fun d => d.regex.test "hg  bookmark") = [] ∧
      ((commandConfig mapDotToHead).filter fun d => d.regex.test "hg bookmark").map
        (fun d => d.name) = ["bookmark"] ∧
      ((commandConfig mapDotToHead).filter fun d => d.regex.test "hg  commit").map
        (fun d => d.name) = ["commit"] := by
  refine ⟨?_, ?_, rfl, ?_, ?_, ?_⟩
  · intro d hd hne w hw
    exact (config_accepts mapDotToHead k d hd w hw).1 hne
  · intro d hd he w hw
    exact ⟨(config_accepts mapDotToHead k d hd w hw).2 he,
      bookmark_rejects_more_spaces mapDotToHead k w d hd he⟩
  · rfl
  · rfl
  · rfl

end Hg
